import Mathlib

/-!
Verification development for the chunked relevance retriever of the
document Q&A application: a shallow embedding of `chunkText`, `scoreChunk`,
`getRelevantChunks`, `getRelevantChunksMultiDoc` and the per-document
citation grouping (`sourceMap`), together with theorems settling the
behavioural claims about them.

Strings are modelled through their character lists.  JavaScript's
floating-point relevance score `m / Math.sqrt(n)` is represented exactly
by the pair `(m, n)` of natural numbers; statements about the real value
use `(m : ℝ) / Real.sqrt n` directly, and comparisons used for ranking are
expressed by the order-isomorphic rational key `m^2 / n`.
-/

set_option maxRecDepth 8000

namespace Rag

/-- Whitespace test for a character, modelling the JavaScript regex class
`\s` (restricted to the ASCII whitespace characters): space, tab, line
feed, carriage return, vertical tab and form feed. -/
def isWs (c : Char) : Bool :=
  c == ' ' || c == '\t' || c == '\n' || c == '\r' || c == '\x0b' || c == '\x0c'

/-- Scanner producing the maximal runs of non-whitespace characters of a
character list; `acc` holds the reversed run currently being read. -/
def wordsAux : List Char → List Char → List (List Char)
  | [], acc => if acc.isEmpty then [] else [acc.reverse]
  | c :: cs, acc =>
    if isWs c then
      if acc.isEmpty then wordsAux cs [] else acc.reverse :: wordsAux cs []
    else
      wordsAux cs (c :: acc)

/-- Maximal non-whitespace runs (the "words") of a character list. -/
def wordsOf (l : List Char) : List (List Char) := wordsAux l []

/-- Model of JavaScript `s.split(/\s+/)` on a character list.  Maximal
whitespace runs separate the fields; a run touching the start (resp. end)
of the string contributes a leading (resp. trailing) empty field, and the
empty string yields `[""]`.  For example `" a b "` splits to
`["", "a", "b", ""]` and `"  "` splits to `["", ""]`. -/
def jsSplitChars : List Char → List String
  | [] => [""]
  | c :: cs =>
    (if isWs c then [""] else []) ++ (wordsOf (c :: cs)).map String.mk
      ++ (if isWs (List.getLastD cs c) then [""] else [])

/-- JavaScript `s.split(/\s+/)` on a string. -/
def jsSplitWs (s : String) : List String := jsSplitChars s.data

/-- Model of JavaScript `String.prototype.trim`: remove leading and
trailing whitespace. -/
def jsTrim (s : String) : String :=
  String.mk (((s.data.dropWhile isWs).reverse.dropWhile isWs).reverse)

/-- JavaScript `arr.join(' ')`: interleave single spaces. -/
def joinSpace : List String → String
  | [] => ""
  | [s] => s
  | s :: t :: rest => s ++ " " ++ joinSpace (t :: rest)

/-- Loop of `chunkText` from the source (`for (let i = 0; i < words.length;
i += chunkSize - overlap)`), with an explicit fuel parameter standing for
the maximal number of remaining iterations.  Each iteration slices
`words.slice(i, i + chunkSize)`, joins with spaces, pushes the chunk when
its trimmed text is nonempty, and breaks once `i + chunkSize` reaches the
end of the word array. -/
def chunkLoop (words : List String) (chunkSize overlap : Nat) : Nat → Nat → List String
  | 0, _ => []
  | fuel + 1, i =>
    if i < words.length then
      let chunk := joinSpace ((words.drop i).take chunkSize)
      let rest :=
        if words.length ≤ i + chunkSize then []
        else chunkLoop words chunkSize overlap fuel (i + (chunkSize - overlap))
      if 0 < (jsTrim chunk).length then chunk :: rest else rest
    else []

/-- The source's `chunkText(text, chunkSize = 500, overlap = 100)`.
The fuel `words.length + 1` is sufficient whenever `overlap < chunkSize`
(lemma `chunkLoop_fuel_stable`); every call in the source uses the default
arguments `chunkSize = 500`, `overlap = 100`. -/
def chunkText (text : String) (chunkSize overlap : Nat) : List String :=
  chunkLoop (jsSplitWs text) chunkSize overlap ((jsSplitWs text).length + 1) 0

/-- The fixed 31-entry stop-word list of `scoreChunk`. -/
def stopWords : List String :=
  ["the", "and", "for", "are", "but", "not", "you", "all", "can", "had",
   "her", "was", "one", "our", "out", "has", "how", "who", "what", "when",
   "where", "which", "why", "this", "that", "with", "from", "have", "will",
   "does", "about"]

/-- JavaScript `s.toLowerCase()` (character-wise lowering). -/
def lowerStr (s : String) : String := String.mk (s.data.map Char.toLower)

/-- The surviving question tokens of `scoreChunk`: lower-case the question,
split on whitespace, keep tokens of length `> 2` that are not stop words. -/
def questionTokens (question : String) : List String :=
  ((jsSplitWs (lowerStr question)).filter (fun w => 2 < w.length)).filter
    (fun w => !(stopWords.contains w))

/-- Left-to-right scan counting occurrences of the pattern `p`.  After a
match the scan continues at the first position past the match, realised by
the `skip` counter (`skip` positions still covered by the last match are
passed over without testing). -/
def countAux (p : List Char) : List Char → Nat → Nat
  | [], _ => 0
  | c :: rest, skip =>
    if 0 < skip then
      countAux p rest (skip - 1)
    else if 0 < p.length ∧ (c :: rest).take p.length = p then
      1 + countAux p rest (p.length - 1)
    else
      countAux p rest 0

/-- Number of non-overlapping occurrences of the pattern `p` in `s`,
scanning left to right and continuing after the end of each match: the
match count of the global regex built from the escaped token in the source
(`chunkLower.match(new RegExp(escaped, 'gi')).length`). -/
def countOccs (p s : List Char) : Nat := countAux p s 0

/-- The score accumulation loop of `scoreChunk`: sum, over the surviving
tokens, of the occurrence counts inside the lower-cased chunk. -/
def scoreNum (chunk : String) (toks : List String) : Nat :=
  toks.foldl (fun acc t => acc + countOccs t.data (lowerStr chunk).data) 0

/-- The source's `scoreChunk(chunk, question)`, returning the exact
representation `(m, n)` of the floating-point result `m / Math.sqrt(n)`:
`m` is the summed occurrence count and `n = chunk.split(/\s+/).length`.
The early return `0` (no surviving question tokens) is represented by
`(0, 1)`, whose denoted value is also `0`. -/
def scoreChunk (chunk question : String) : Nat × Nat :=
  let toks := questionTokens question
  if toks.isEmpty then (0, 1)
  else (scoreNum chunk toks, (jsSplitWs chunk).length)

/-- Comparison of two score representations `(m, n)` denoting `m / √n`:
cross-multiplied comparison of the squares, `m₁² · n₂ ≤ m₂² · n₁`.  For
denominators `n ≥ 1` — which holds for every score the retriever produces —
this is exactly the order of the real values `m / √n`, since squaring is
monotone on nonnegative reals (lemma `scoreLe_iff_val`); the `max · 1`
guard only normalizes the degenerate denominator `0`, keeping the relation
transitive on all representations. -/
def scoreLe (p q : Nat × Nat) : Prop :=
  p.1 * p.1 * max q.2 1 ≤ q.1 * q.1 * max p.2 1

/-- A document record as consumed by `getRelevantChunksMultiDoc`:
`{ id, filename, content }`. -/
structure DocRec where
  id : Nat
  filename : String
  content : String
deriving DecidableEq

/-- The source's `ScoredChunk` interface of the multi-document selector. -/
structure ScoredChunk where
  chunk : String
  score : Nat × Nat
  index : Nat
  filename : String
  documentId : Nat
deriving DecidableEq

/-- The anonymous `{chunk, score, index}` records of the single-document
selector `getRelevantChunks`. -/
structure SChunk where
  chunk : String
  score : Nat × Nat
  index : Nat
deriving DecidableEq

/-- Comparator of the multi-document selector: `(a, b) => b.score - a.score`
sorts by score descending, i.e. `a` precedes `b` when `score b ≤ score a`. -/
def byScoreDesc (a b : ScoredChunk) : Prop := scoreLe b.score a.score

instance : DecidableRel byScoreDesc := fun a b =>
  inferInstanceAs (Decidable (_ ≤ _))

/-- Score-descending comparator of the single-document selector. -/
def sByScoreDesc (a b : SChunk) : Prop := scoreLe b.score a.score

instance : DecidableRel sByScoreDesc := fun a b =>
  inferInstanceAs (Decidable (_ ≤ _))

/-- Index-ascending comparator of the single-document selector's second
sort: `(a, b) => a.index - b.index`. -/
def sByIdxAsc (a b : SChunk) : Prop := a.index ≤ b.index

instance : DecidableRel sByIdxAsc := fun a b =>
  inferInstanceAs (Decidable (a.index ≤ b.index))

/-- The inner loop of `getRelevantChunksMultiDoc`: push one `ScoredChunk`
per chunk of one document, indices counting up from `i`. -/
def scoreDocChunks (question filename : String) (docId : Nat) :
    List String → Nat → List ScoredChunk
  | [], _ => []
  | c :: rest, i =>
    ⟨c, scoreChunk c question, i, filename, docId⟩ ::
      scoreDocChunks question filename docId rest (i + 1)

/-- The flat `allScored` collection of `getRelevantChunksMultiDoc`: all
documents chunked (with the default `chunkSize = 500`, `overlap = 100`)
and scored, in document order. -/
def multiAllScored (question : String) : List DocRec → List ScoredChunk
  | [] => []
  | d :: rest =>
    scoreDocChunks question d.filename d.id (chunkText d.content 500 100) 0
      ++ multiAllScored question rest

/-- The source's `getRelevantChunksMultiDoc(docs, question, topK = 8)`:
sort the flat collection by score descending (stable) and take the first
`topK` entries. -/
def getRelevantChunksMultiDoc (docs : List DocRec) (question : String)
    (topK : Nat) : List ScoredChunk :=
  (List.insertionSort byScoreDesc (multiAllScored question docs)).take topK

/-- The scored-and-indexed chunk list of `getRelevantChunks`. -/
def scoredSingle (question : String) : List String → Nat → List SChunk
  | [], _ => []
  | c :: rest, i => ⟨c, scoreChunk c question, i⟩ :: scoredSingle question rest (i + 1)

/-- The source's `getRelevantChunks(content, question, topK = 5)` up to the
final projection to chunk text: rank by score descending, take the top
`topK`, then re-sort the selection into ascending original index order. -/
def getRelevantChunksScored (content question : String) (topK : Nat) : List SChunk :=
  List.insertionSort sByIdxAsc
    ((List.insertionSort sByScoreDesc
        (scoredSingle question (chunkText content 500 100) 0)).take topK)

/-- The source's `getRelevantChunks(content, question, topK)`. -/
def getRelevantChunks (content question : String) (topK : Nat) : List String :=
  (getRelevantChunksScored content question topK).map SChunk.chunk

/-- The 200-character preview of a chunk used for citation display:
`chunk.substring(0, 200) + (chunk.length > 200 ? '...' : '')`. -/
def preview (s : String) : String :=
  String.mk (s.data.take 200) ++ (if 200 < s.data.length then "..." else "")

/-- The citation entry pushed for one selected chunk:
`{ index: chunk.index + 1, preview: ... }`. -/
def entryOf (e : ScoredChunk) : Nat × String := (e.index + 1, preview e.chunk)

/-- One value of the source's `sourceMap`: a filename together with the
citation entries pushed for it. -/
structure SourceGroup where
  filename : String
  chunks : List (Nat × String)
deriving DecidableEq

/-- Append a citation entry to the group of `f`, creating a new group at
the end when no group for `f` exists yet: the behaviour of the insertion-
ordered JavaScript `Map` used to build `sourceMap`. -/
def insertEntry : List SourceGroup → String → (Nat × String) → List SourceGroup
  | [], f, p => [⟨f, [p]⟩]
  | g :: gs, f, p =>
    if g.filename == f then ⟨g.filename, g.chunks ++ [p]⟩ :: gs
    else g :: insertEntry gs f p

/-- The per-document citation grouping of the selected chunks
(`sourceMap` in both the document Q&A route and the deep-search route):
iterate the selection in order and group the entries by filename. -/
def sourceGroups (selected : List ScoredChunk) : List SourceGroup :=
  selected.foldl (fun gs e => insertEntry gs e.filename (entryOf e)) []

/-- First-seen deduplication of a list of filenames, preserving the order
in which each filename first appears. -/
def firstSeen : List String → List String
  | [] => []
  | f :: rest => f :: (firstSeen rest).filter (fun x => !(x == f))

/-- Closed form of the citation grouping: one group per distinct filename
in first-appearance order, containing the entries of that filename in
selection order (theorem `sourceGroups_spec`). -/
def groupsFor (l : List ScoredChunk) : List SourceGroup :=
  (firstSeen (l.map ScoredChunk.filename)).map
    (fun f => ⟨f, (l.filter (fun e => e.filename == f)).map entryOf⟩)

/-- The question rejection check of the request handlers:
`!question || question.trim().length < 3`. -/
def questionRejected (q : String) : Bool :=
  (q == "") || decide ((jsTrim q).length < 3)

/-- Boundary cleanliness of a character list: nonempty with non-whitespace
first and last character.  For such text the JavaScript split introduces no
empty boundary fields. -/
def cleanChars : List Char → Bool
  | [] => false
  | c :: cs => !isWs c && !isWs (List.getLastD cs c)

/-- Boundary cleanliness of a string. -/
def cleanStr (s : String) : Bool := cleanChars s.data

/-- Reference tokenization following the specification's words (§4.2 step
2): tokenize the lower-cased question on whitespace — producing its words —
then discard tokens of length ≤ 2 and stop-word tokens. -/
def questionTokensSpec (question : String) : List String :=
  (((wordsOf (lowerStr question).data).map String.mk).filter
      (fun w => 2 < w.length)).filter (fun w => !(stopWords.contains w))

/-- Reference scorer following the specification's words (§4.2), used as
the comparison point of the refinement claim C2: tokenize and filter the
lower-cased question, return `0` (represented `(0, 1)`) when no token
survives, otherwise sum the non-overlapping substring occurrence counts of
the surviving tokens in the lower-cased chunk and divide by the square
root of the chunk's whitespace-split word count (its number of words). -/
def scoreChunkSpec (chunk question : String) : Nat × Nat :=
  let toks := questionTokensSpec question
  if toks.isEmpty then (0, 1)
  else (scoreNum chunk toks, (wordsOf chunk.data).length)

/-- Concrete input for claim C1: a leading space followed by exactly 500
words. -/
def c1Text : String := " " ++ joinSpace (List.replicate 500 "a")

/-- Concrete input for claim C5: one document of 501 words whose last word
is the only match for the question "apple", so that its second chunk
outranks its first. -/
def c5Docs : List DocRec :=
  [⟨1, "notes.txt", joinSpace (List.replicate 500 "xx" ++ ["apple"])⟩]

lemma scoreLe_total (p q : Nat × Nat) : scoreLe p q ∨ scoreLe q p :=
  Nat.le_total _ _

lemma scoreLe_trans (p q r : Nat × Nat) (h1 : scoreLe p q) (h2 : scoreLe q r) :
    scoreLe p r := by
  rw [scoreLe] at h1 h2 ⊢
  have hq : 0 < max q.2 1 := by omega
  have h1' := Nat.mul_le_mul_right (max r.2 1) h1
  have h2' := Nat.mul_le_mul_right (max p.2 1) h2
  have hchain : p.1 * p.1 * max r.2 1 * max q.2 1
      ≤ r.1 * r.1 * max p.2 1 * max q.2 1 := by
    calc p.1 * p.1 * max r.2 1 * max q.2 1
        = p.1 * p.1 * max q.2 1 * max r.2 1 := by ring
      _ ≤ q.1 * q.1 * max p.2 1 * max r.2 1 := h1'
      _ = q.1 * q.1 * max r.2 1 * max p.2 1 := by ring
      _ ≤ r.1 * r.1 * max q.2 1 * max p.2 1 := h2'
      _ = r.1 * r.1 * max p.2 1 * max q.2 1 := by ring
  exact Nat.le_of_mul_le_mul_right hchain hq

instance : IsTotal ScoredChunk byScoreDesc :=
  ⟨fun a b => scoreLe_total b.score a.score⟩

instance : IsTrans ScoredChunk byScoreDesc :=
  ⟨fun _ _ _ hab hbc => scoreLe_trans _ _ _ hbc hab⟩

instance : IsTotal SChunk sByScoreDesc :=
  ⟨fun a b => scoreLe_total b.score a.score⟩

instance : IsTrans SChunk sByScoreDesc :=
  ⟨fun _ _ _ hab hbc => scoreLe_trans _ _ _ hbc hab⟩

instance : IsTotal SChunk sByIdxAsc := ⟨fun _ _ => Nat.le_total _ _⟩

instance : IsTrans SChunk sByIdxAsc := ⟨fun _ _ _ => Nat.le_trans⟩

example : jsSplitWs "" = [""] := by decide
example : jsSplitWs " " = ["", ""] := by decide
example : jsSplitWs " a b " = ["", "a", "b", ""] := by decide
example : chunkText "" 500 100 = [] := by decide
example : chunkText " \t " 500 100 = [] := by decide
example : chunkText "hello world" 500 100 = ["hello world"] := by decide
example : chunkText "a b c d e" 2 1 = ["a b", "b c", "c d", "d e"] := by decide
example : scoreChunk "The cat sat" "the" = (0, 1) := by decide
example : scoreChunk "The cat sat" "cat" = (1, 3) := by decide
example : countOccs "aa".data "aaaa".data = 2 := by decide
example :
    scoreChunk "The cat sat on the mat. The cat likes fish." "What does the cat like?"
      = (2, 10) := by decide
example : scoreChunk "abc" "abc" = (1, 1) := by decide
example : scoreChunk "abc abc" "abc" = (2, 2) := by decide
example : questionRejected "a b" = false := by decide
example : questionRejected "ab" = true := by decide
example :
    getRelevantChunksMultiDoc [⟨1, "f", "hello world"⟩] "hello" 5
      = [⟨"hello world", (1, 2), 0, "f", 1⟩] := by decide
example :
    sourceGroups [⟨"c1", (1, 1), 3, "f", 1⟩, ⟨"c2", (1, 1), 0, "g", 2⟩,
        ⟨"c3", (0, 1), 1, "f", 1⟩]
      = [⟨"f", [(4, "c1"), (2, "c3")]⟩, ⟨"g", [(1, "c2")]⟩] := by decide

lemma wordsAux_nil_eq (acc : List Char) :
    wordsAux [] acc = if acc.isEmpty then [] else [acc.reverse] := rfl

lemma wordsAux_cons_eq (c : Char) (cs acc : List Char) :
    wordsAux (c :: cs) acc =
      if isWs c then
        if acc.isEmpty then wordsAux cs [] else acc.reverse :: wordsAux cs []
      else wordsAux cs (c :: acc) := rfl

lemma wordsAux_mem (s : List Char) : ∀ (acc : List Char),
    (∀ c ∈ acc, isWs c = false) →
    ∀ w ∈ wordsAux s acc, w ≠ [] ∧ ∀ c ∈ w, isWs c = false := by
  induction s with
  | nil =>
    intro acc hacc w hw
    rw [wordsAux_nil_eq] at hw
    by_cases h : acc.isEmpty
    · simp [h] at hw
    · simp only [h, Bool.false_eq_true, if_false, List.mem_singleton] at hw
      subst hw
      refine ⟨?_, ?_⟩
      · intro hrev
        exact h (by simp [List.isEmpty_iff, ← List.reverse_eq_nil_iff, hrev])
      · intro c hc
        exact hacc c (List.mem_reverse.mp hc)
  | cons c cs ih =>
    intro acc hacc w hw
    rw [wordsAux_cons_eq] at hw
    by_cases hws : isWs c
    · simp only [hws, if_true] at hw
      by_cases h : acc.isEmpty
      · simp only [h, if_true] at hw
        exact ih [] (by simp) w hw
      · simp only [h, Bool.false_eq_true, if_false, List.mem_cons] at hw
        rcases hw with rfl | hw
        · refine ⟨?_, ?_⟩
          · intro hrev
            exact h (by simp [List.isEmpty_iff, ← List.reverse_eq_nil_iff, hrev])
          · intro x hx
            exact hacc x (List.mem_reverse.mp hx)
        · exact ih [] (by simp) w hw
    · simp only [hws, Bool.false_eq_true, if_false] at hw
      refine ih (c :: acc) ?_ w hw
      intro x hx
      rcases List.mem_cons.mp hx with rfl | hx
      · simpa using hws
      · exact hacc x hx

lemma wordsOf_mem (l : List Char) :
    ∀ w ∈ wordsOf l, w ≠ [] ∧ ∀ c ∈ w, isWs c = false :=
  wordsAux_mem l [] (by simp)

lemma wordsAux_ne_nil (s : List Char) : ∀ (acc : List Char), acc ≠ [] →
    wordsAux s acc ≠ [] := by
  induction s with
  | nil =>
    intro acc hacc
    rw [wordsAux_nil_eq]
    simp [List.isEmpty_iff, hacc]
  | cons c cs ih =>
    intro acc hacc
    rw [wordsAux_cons_eq]
    by_cases hws : isWs c
    · simp [hws, List.isEmpty_iff, hacc]
    · simp only [hws, Bool.false_eq_true, if_false]
      exact ih (c :: acc) (by simp)

lemma wordsOf_head_ne_nil (c : Char) (cs : List Char) (h : isWs c = false) :
    wordsOf (c :: cs) ≠ [] := by
  rw [wordsOf, wordsAux_cons_eq]
  simp only [h, Bool.false_eq_true, if_false]
  exact wordsAux_ne_nil cs [c] (by simp)

lemma wordsAux_all_ws (s : List Char) (hs : ∀ c ∈ s, isWs c = true) :
    wordsAux s [] = [] := by
  induction s with
  | nil => rfl
  | cons c cs ih =>
    rw [wordsAux_cons_eq]
    simp only [hs c (List.mem_cons_self c cs), if_true, List.isEmpty_nil]
    exact ih (fun x hx => hs x (List.mem_cons_of_mem c hx))

lemma wordsAux_sep (ys : List Char) : ∀ (xs acc : List Char),
    wordsAux (xs ++ ' ' :: ys) acc = wordsAux xs acc ++ wordsAux ys [] := by
  intro xs
  induction xs with
  | nil =>
    intro acc
    rw [List.nil_append, wordsAux_cons_eq, wordsAux_nil_eq]
    have hsp : isWs ' ' = true := rfl
    by_cases h : acc.isEmpty <;> simp [hsp, h]
  | cons c cs ih =>
    intro acc
    rw [List.cons_append, wordsAux_cons_eq, wordsAux_cons_eq]
    by_cases hws : isWs c
    · by_cases h : acc.isEmpty <;> simp [hws, h, ih]
    · simp [hws, ih]

lemma wordsOf_sep (xs ys : List Char) :
    wordsOf (xs ++ ' ' :: ys) = wordsOf xs ++ wordsOf ys :=
  wordsAux_sep ys xs []

lemma cleanChars_cons (c : Char) (cs : List Char) :
    cleanChars (c :: cs) = (!isWs c && !isWs (List.getLastD cs c)) := rfl

lemma cleanStr_elim (s : String) (h : cleanStr s = true) :
    ∃ c cs, s.data = c :: cs ∧ isWs c = false
      ∧ isWs (List.getLastD cs c) = false := by
  rw [cleanStr] at h
  cases hd : s.data with
  | nil => rw [hd] at h; exact absurd h (by simp [cleanChars])
  | cons c cs =>
    rw [hd, cleanChars_cons] at h
    simp only [Bool.and_eq_true, Bool.not_eq_true'] at h
    exact ⟨c, cs, rfl, h.1, h.2⟩

lemma jsSplitChars_cons (c : Char) (cs : List Char) :
    jsSplitChars (c :: cs) =
      (if isWs c then [""] else []) ++ (wordsOf (c :: cs)).map String.mk
        ++ (if isWs (List.getLastD cs c) then [""] else []) := rfl

lemma jsSplitWs_clean (s : String) (h : cleanStr s = true) :
    jsSplitWs s = (wordsOf s.data).map String.mk := by
  obtain ⟨c, cs, hd, h1, h2⟩ := cleanStr_elim s h
  rw [jsSplitWs, hd, jsSplitChars_cons, h1, h2]
  simp

lemma mem_jsSplitChars (l : List Char) (t : String) (ht : t ∈ jsSplitChars l) :
    t = "" ∨ ∃ w ∈ wordsOf l, t = String.mk w := by
  cases l with
  | nil =>
    left
    simpa [jsSplitChars] using ht
  | cons c cs =>
    rw [jsSplitChars_cons] at ht
    rcases List.mem_append.mp ht with ht' | ht'
    · rcases List.mem_append.mp ht' with ht'' | ht''
      · left
        by_cases hws : isWs c = true
        · rw [if_pos hws] at ht''
          exact List.mem_singleton.mp ht''
        · rw [if_neg hws] at ht''
          exact absurd ht'' (List.not_mem_nil t)
      · right
        obtain ⟨w, hw, hweq⟩ := List.mem_map.mp ht''
        exact ⟨w, hw, hweq.symm⟩
    · left
      by_cases hws : isWs (List.getLastD cs c) = true
      · rw [if_pos hws] at ht'
        exact List.mem_singleton.mp ht'
      · rw [if_neg hws] at ht'
        exact absurd ht' (List.not_mem_nil t)

lemma mem_jsSplitWs_long (s t : String) (ht : t ∈ jsSplitWs s)
    (hlen : 0 < t.length) :
    ∃ w ∈ wordsOf s.data, t = String.mk w := by
  rcases mem_jsSplitChars s.data t ht with rfl | h
  · exact absurd hlen (by simp)
  · exact h

lemma filter_dropWhile (p : Char → Bool) : ∀ l : List Char,
    (List.dropWhile p l).filter (fun c => !p c) = l.filter (fun c => !p c) := by
  intro l
  induction l with
  | nil => rfl
  | cons c cs ih =>
    by_cases h : p c
    · simp [List.dropWhile, List.filter, h, ih]
    · simp [List.dropWhile, List.filter, h]

lemma jsTrim_filter (s : String) :
    (jsTrim s).data.filter (fun c => !isWs c) = s.data.filter (fun c => !isWs c) := by
  rw [jsTrim]
  show ((((s.data.dropWhile isWs).reverse.dropWhile isWs).reverse).filter
      (fun c => !isWs c)) = _
  rw [List.filter_reverse, filter_dropWhile, List.filter_reverse,
    List.reverse_reverse, filter_dropWhile]

lemma jsTrim_length_pos (s : String) (h : ∃ c ∈ s.data, isWs c = false) :
    0 < (jsTrim s).length := by
  obtain ⟨c, hc, hcw⟩ := h
  have hmem : c ∈ s.data.filter (fun c => !isWs c) :=
    List.mem_filter.mpr ⟨hc, by simp [hcw]⟩
  rw [← jsTrim_filter] at hmem
  have : (jsTrim s).data ≠ [] := by
    intro hnil
    rw [hnil] at hmem
    simp at hmem
  have hlen : 0 < (jsTrim s).data.length := List.length_pos.mpr this
  exact hlen

lemma jsTrim_length_ge_nonWs (s : String) :
    (s.data.filter (fun c => !isWs c)).length ≤ (jsTrim s).length := by
  have h1 : (s.data.filter (fun c => !isWs c)).length
      = ((jsTrim s).data.filter (fun c => !isWs c)).length := by
    rw [jsTrim_filter]
  rw [h1]
  exact (jsTrim s).data.length_filter_le _

lemma joinSpace_cons_cons (s t : String) (rest : List String) :
    joinSpace (s :: t :: rest) = s ++ " " ++ joinSpace (t :: rest) := rfl

lemma mem_joinSpace_data : ∀ (l : List String) (w : String), w ∈ l →
    ∀ c ∈ w.data, c ∈ (joinSpace l).data := by
  intro l
  induction l with
  | nil => simp
  | cons s rest ih =>
    intro w hw c hc
    cases rest with
    | nil =>
      rcases List.mem_singleton.mp hw with rfl
      simpa [joinSpace] using hc
    | cons t r =>
      rw [joinSpace_cons_cons, String.data_append, String.data_append]
      rcases List.mem_cons.mp hw with rfl | hw
      · exact List.mem_append_left _ (List.mem_append_left _ hc)
      · exact List.mem_append_right _ (ih w hw c hc)

lemma chunkLoop_exit (words : List String) (S O : Nat) :
    ∀ (fuel i : Nat), words.length ≤ i → chunkLoop words S O fuel i = [] := by
  intro fuel i h
  cases fuel with
  | zero => rfl
  | succ f =>
    show (if i < words.length then _ else _) = ([] : List String)
    rw [if_neg (by omega)]

lemma chunkLoop_succ_lt (words : List String) (S O fuel i : Nat)
    (hi : i < words.length) :
    chunkLoop words S O (fuel + 1) i =
      (if 0 < (jsTrim (joinSpace ((words.drop i).take S))).length
        then [joinSpace ((words.drop i).take S)] else []) ++
      (if words.length ≤ i + S then []
        else chunkLoop words S O fuel (i + (S - O))) := by
  show (if i < words.length then _ else _) = _
  rw [if_pos hi]
  show (if 0 < (jsTrim (joinSpace ((words.drop i).take S))).length
      then joinSpace ((words.drop i).take S) ::
        (if words.length ≤ i + S then []
          else chunkLoop words S O fuel (i + (S - O)))
      else (if words.length ≤ i + S then []
        else chunkLoop words S O fuel (i + (S - O)))) = _
  by_cases hg : 0 < (jsTrim (joinSpace ((words.drop i).take S))).length
  · rw [if_pos hg, if_pos hg, List.singleton_append]
  · rw [if_neg hg, if_neg hg, List.nil_append]

lemma chunkLoop_fuel_stable (words : List String) (S O : Nat) (hSO : O < S) :
    ∀ (d i f1 f2 : Nat), words.length - i ≤ d → words.length - i ≤ f1 →
      words.length - i ≤ f2 →
      chunkLoop words S O f1 i = chunkLoop words S O f2 i := by
  intro d
  induction d with
  | zero =>
    intro i f1 f2 hd _ _
    have hi : words.length ≤ i := by omega
    rw [chunkLoop_exit words S O f1 i hi, chunkLoop_exit words S O f2 i hi]
  | succ d ih =>
    intro i f1 f2 hd h1 h2
    by_cases hi : i < words.length
    · obtain ⟨g1, rfl⟩ := Nat.exists_eq_succ_of_ne_zero (show f1 ≠ 0 by omega)
      obtain ⟨g2, rfl⟩ := Nat.exists_eq_succ_of_ne_zero (show f2 ≠ 0 by omega)
      rw [chunkLoop_succ_lt words S O g1 i hi, chunkLoop_succ_lt words S O g2 i hi]
      by_cases hbreak : words.length ≤ i + S
      · rw [if_pos hbreak, if_pos hbreak]
      · rw [if_neg hbreak, if_neg hbreak]
        have hrec := ih (i + (S - O)) g1 g2 (by omega) (by omega) (by omega)
        rw [hrec]
    · rw [chunkLoop_exit words S O f1 i (by omega),
        chunkLoop_exit words S O f2 i (by omega)]

lemma chunkGuard_pos (words : List String)
    (hw : ∀ w ∈ words, ∃ c ∈ w.data, isWs c = false) (i S : Nat)
    (hi : i < words.length) (hS : 0 < S) :
    0 < (jsTrim (joinSpace ((words.drop i).take S))).length := by
  have hlen : 0 < ((words.drop i).take S).length := by
    rw [List.length_take, List.length_drop]
    omega
  obtain ⟨w, hwmem⟩ :=
    List.exists_mem_of_ne_nil _ (List.length_pos.mp hlen)
  have hwords : w ∈ words :=
    (List.drop_sublist i words).subset ((List.take_sublist S _).subset hwmem)
  obtain ⟨c, hcw, hcws⟩ := hw w hwords
  exact jsTrim_length_pos _ ⟨c, mem_joinSpace_data _ w hwmem c hcw, hcws⟩

lemma getLastD_mem_cons : ∀ (cs : List Char) (c : Char),
    List.getLastD cs c ∈ c :: cs := by
  intro cs
  induction cs with
  | nil => intro c; simp [List.getLastD]
  | cons d ds ih =>
    intro c
    rw [List.getLastD_cons]
    exact List.mem_cons_of_mem c (ih d)

lemma chunkLoop_length_clean (words : List String)
    (hw : ∀ w ∈ words, ∃ c ∈ w.data, isWs c = false) :
    ∀ (d i fuel : Nat), words.length - i ≤ d → i < words.length →
      words.length - i ≤ fuel →
      (chunkLoop words 500 100 fuel i).length
        = (words.length - i - 500 + 399) / 400 + 1 := by
  intro d
  induction d with
  | zero => intro i fuel hd hi _; omega
  | succ d ih =>
    intro i fuel hd hi hf
    obtain ⟨g, rfl⟩ := Nat.exists_eq_succ_of_ne_zero (show fuel ≠ 0 by omega)
    rw [chunkLoop_succ_lt words 500 100 g i hi]
    have hg := chunkGuard_pos words hw i 500 hi (by omega)
    rw [if_pos hg]
    by_cases hbreak : words.length ≤ i + 500
    · rw [if_pos hbreak]
      simp only [List.length_append, List.length_cons, List.length_nil]
      omega
    · rw [if_neg hbreak, show (500 : Nat) - 100 = 400 from rfl]
      have hrec := ih (i + 400) g (by omega) (by omega) (by omega)
      rw [List.length_append, hrec]
      simp only [List.length_cons, List.length_nil]
      omega

lemma chunkText_length_clean (text : String) (h : cleanStr text = true) :
    (chunkText text 500 100).length
      = ((wordsOf text.data).length - 500 + 399) / 400 + 1 := by
  have hsplit := jsSplitWs_clean text h
  obtain ⟨c, cs, hd, h1, _⟩ := cleanStr_elim text h
  have hne : wordsOf text.data ≠ [] := by
    rw [hd]; exact wordsOf_head_ne_nil c cs h1
  have hlen : 0 < (jsSplitWs text).length := by
    rw [hsplit, List.length_map]
    exact List.length_pos.mpr hne
  have hw : ∀ w ∈ jsSplitWs text, ∃ c ∈ w.data, isWs c = false := by
    intro w hwmem
    rw [hsplit] at hwmem
    obtain ⟨l, hl, rfl⟩ := List.mem_map.mp hwmem
    obtain ⟨hlne, hlws⟩ := wordsOf_mem text.data l hl
    obtain ⟨c0, hc0⟩ := List.exists_mem_of_ne_nil l hlne
    exact ⟨c0, hc0, hlws c0 hc0⟩
  unfold chunkText
  rw [chunkLoop_length_clean (jsSplitWs text) hw ((jsSplitWs text).length) 0
    ((jsSplitWs text).length + 1) (by omega) hlen (by omega)]
  rw [hsplit, List.length_map]
  omega

lemma jsSplitWs_all_ws (s : String) (hs : ∀ c ∈ s.data, isWs c = true)
    (hne : s.data ≠ []) :
    jsSplitWs s = ["", ""] := by
  rw [jsSplitWs]
  cases hd : s.data with
  | nil => exact absurd hd hne
  | cons c cs =>
    have h1 : isWs c = true := hs c (by rw [hd]; exact List.mem_cons_self c cs)
    have h2 : isWs (List.getLastD cs c) = true :=
      hs _ (by rw [hd]; exact getLastD_mem_cons cs c)
    have h3 : wordsOf (c :: cs) = [] := by
      apply wordsAux_all_ws
      intro x hx
      exact hs x (by rw [hd]; exact hx)
    rw [jsSplitChars_cons, h1, h2, h3]
    simp

lemma chunkText_ws_only (s : String) (hs : ∀ c ∈ s.data, isWs c = true) :
    chunkText s 500 100 = [] := by
  cases hd : s.data with
  | nil =>
    unfold chunkText jsSplitWs
    rw [hd]
    decide
  | cons c cs =>
    have hsplit : jsSplitWs s = ["", ""] :=
      jsSplitWs_all_ws s hs (by rw [hd]; simp)
    unfold chunkText
    rw [hsplit]
    decide

lemma countAux_nil (p : List Char) (skip : Nat) : countAux p [] skip = 0 := rfl

lemma countAux_cons (p : List Char) (c : Char) (rest : List Char) (skip : Nat) :
    countAux p (c :: rest) skip =
      if 0 < skip then countAux p rest (skip - 1)
      else if 0 < p.length ∧ (c :: rest).take p.length = p then
        1 + countAux p rest (p.length - 1)
      else countAux p rest 0 := rfl

lemma mem_of_getElem_some {α : Type} (l : List α) (i : Nat) (a : α)
    (h : l[i]? = some a) : a ∈ l := by
  obtain ⟨hlt, he⟩ := List.getElem?_eq_some_iff.mp h
  exact he ▸ List.getElem_mem hlt

lemma pattern_no_space (p : List Char) (hp : ∀ c ∈ p, isWs c = false)
    (s : List Char) (hpl : 0 < p.length) : (' ' :: s).take p.length ≠ p := by
  intro htake
  obtain ⟨m, hm⟩ : ∃ m, p.length = m + 1 := ⟨p.length - 1, by omega⟩
  rw [hm, List.take_succ_cons] at htake
  have hsp : ' ' ∈ p := by
    rw [← htake]
    exact List.mem_cons_self _ _
  have := hp ' ' hsp
  simp [isWs] at this

lemma take_sep_iff (p : List Char) (hp : ∀ c ∈ p, isWs c = false)
    (s2 l1 : List Char) :
    ((l1 ++ ' ' :: s2).take p.length = p) ↔ (l1.take p.length = p) := by
  constructor
  · intro h
    have hL : p.length ≤ l1.length := by
      by_contra hgt
      push_neg at hgt
      have hsp : (l1 ++ ' ' :: s2)[l1.length]? = some ' ' := by
        rw [List.getElem?_append_right (le_refl _)]
        simp
      have hpmem : ' ' ∈ p := by
        have hpe : p[l1.length]? = some ' ' := by
          rw [← h, List.getElem?_take, if_pos hgt]
          exact hsp
        exact mem_of_getElem_some p l1.length ' ' hpe
      have := hp ' ' hpmem
      simp [isWs] at this
    rw [List.take_append_of_le_length hL] at h
    exact h
  · intro h
    have hL : p.length ≤ l1.length := by
      have hce := congrArg List.length h
      rw [List.length_take] at hce
      omega
    rw [List.take_append_of_le_length hL]
    exact h

lemma take_sep_iff_cons (p : List Char) (hp : ∀ c ∈ p, isWs c = false)
    (s2 : List Char) (c : Char) (r : List Char) :
    ((c :: (r ++ ' ' :: s2)).take p.length = p) ↔ ((c :: r).take p.length = p) := by
  rw [← List.cons_append]
  exact take_sep_iff p hp s2 (c :: r)

lemma countAux_sep (p : List Char) (hp : ∀ c ∈ p, isWs c = false)
    (s2 : List Char) :
    ∀ (n : Nat) (s1 : List Char) (skip : Nat), s1.length ≤ n →
      skip ≤ s1.length →
      countAux p (s1 ++ ' ' :: s2) skip = countAux p s1 skip + countAux p s2 0 := by
  intro n
  induction n with
  | zero =>
    intro s1 skip hn hskip
    have hs1 : s1 = [] := List.eq_nil_of_length_eq_zero (by omega)
    subst hs1
    have hsk : skip = 0 := by simpa using hskip
    subst hsk
    rw [List.nil_append, countAux_cons, if_neg (by omega)]
    have hcond : ¬(0 < p.length ∧ (' ' :: s2).take p.length = p) := by
      rintro ⟨hpl, htake⟩
      exact pattern_no_space p hp s2 hpl htake
    rw [if_neg hcond, countAux_nil]
    omega
  | succ n ih =>
    intro s1 skip hn hskip
    cases s1 with
    | nil =>
      have hsk : skip = 0 := by simpa using hskip
      subst hsk
      rw [List.nil_append, countAux_cons, if_neg (by omega)]
      have hcond : ¬(0 < p.length ∧ (' ' :: s2).take p.length = p) := by
        rintro ⟨hpl, htake⟩
        exact pattern_no_space p hp s2 hpl htake
      rw [if_neg hcond, countAux_nil]
      omega
    | cons c r =>
      have hrn : r.length ≤ n := by
        simp only [List.length_cons] at hn
        omega
      rw [List.cons_append, countAux_cons, countAux_cons]
      by_cases hsk : 0 < skip
      · rw [if_pos hsk, if_pos hsk]
        have hsk' : skip - 1 ≤ r.length := by
          simp only [List.length_cons] at hskip
          omega
        rw [ih r (skip - 1) hrn hsk']
      · rw [if_neg hsk, if_neg hsk]
        by_cases hc : 0 < p.length ∧ (c :: r).take p.length = p
        · have hc' : 0 < p.length ∧ (c :: (r ++ ' ' :: s2)).take p.length = p :=
            ⟨hc.1, (take_sep_iff_cons p hp s2 c r).mpr hc.2⟩
          rw [if_pos hc', if_pos hc]
          have hlen : p.length - 1 ≤ r.length := by
            have hce := congrArg List.length hc.2
            rw [List.length_take, List.length_cons] at hce
            omega
          rw [ih r (p.length - 1) hrn hlen]
          omega
        · have hc' : ¬(0 < p.length ∧ (c :: (r ++ ' ' :: s2)).take p.length = p) := by
            rintro ⟨hpl, htake⟩
            exact hc ⟨hpl, (take_sep_iff_cons p hp s2 c r).mp htake⟩
          rw [if_neg hc', if_neg hc]
          rw [ih r 0 hrn (by omega)]

lemma countOccs_sep (p s1 s2 : List Char)
    (hp : ∀ c ∈ p, isWs c = false) :
    countOccs p (s1 ++ ' ' :: s2) = countOccs p s1 + countOccs p s2 :=
  countAux_sep p hp s2 s1.length s1 0 (le_refl _) (by omega)

lemma lowerStr_data (s : String) : (lowerStr s).data = s.data.map Char.toLower := rfl

lemma space_data : (" " : String).data = [' '] := rfl

lemma dup_data (a b : String) :
    (a ++ " " ++ b).data = a.data ++ ' ' :: b.data := by
  rw [String.data_append, String.data_append, space_data, List.append_assoc,
    List.singleton_append]

lemma lowerStr_dup_data (a b : String) :
    (lowerStr (a ++ " " ++ b)).data
      = (lowerStr a).data ++ ' ' :: (lowerStr b).data := by
  rw [lowerStr_data, dup_data, List.map_append, lowerStr_data, lowerStr_data]
  have hsp : Char.toLower ' ' = ' ' := by decide
  simp [hsp]

lemma mem_questionTokens (q t : String) (ht : t ∈ questionTokens q) :
    t.data ≠ [] ∧ ∀ c ∈ t.data, isWs c = false := by
  rw [questionTokens] at ht
  have h1 := List.mem_filter.mp ht
  have h2 := List.mem_filter.mp h1.1
  have hlen : 2 < t.length := by simpa using h2.2
  obtain ⟨w, hw, rfl⟩ := mem_jsSplitWs_long (lowerStr q) t h2.1 (by omega)
  obtain ⟨hne, hws⟩ := wordsOf_mem (lowerStr q).data w hw
  exact ⟨hne, hws⟩

lemma filter_long_jsSplitChars (l : List Char) :
    (jsSplitChars l).filter (fun w => 2 < w.length)
      = ((wordsOf l).map String.mk).filter (fun w => 2 < w.length) := by
  cases l with
  | nil => decide
  | cons c cs =>
    rw [jsSplitChars_cons, List.filter_append, List.filter_append]
    have hlead : (if isWs c then [""] else ([] : List String)).filter
        (fun w => 2 < w.length) = [] := by
      by_cases h : isWs c = true
      · rw [if_pos h]; decide
      · rw [if_neg h]; rfl
    have htrail : (if isWs (List.getLastD cs c) then [""] else ([] : List String)).filter
        (fun w => 2 < w.length) = [] := by
      by_cases h : isWs (List.getLastD cs c) = true
      · rw [if_pos h]; decide
      · rw [if_neg h]; rfl
    rw [hlead, htrail, List.append_nil, List.nil_append]

lemma questionTokens_eq_spec (q : String) :
    questionTokens q = questionTokensSpec q := by
  rw [questionTokens, questionTokensSpec]
  unfold jsSplitWs
  rw [filter_long_jsSplitChars]

lemma foldl_add_eq (f : String → Nat) : ∀ (l : List String) (a : Nat),
    l.foldl (fun acc t => acc + f t) a = a + (l.map f).sum := by
  intro l
  induction l with
  | nil => intro a; simp
  | cons t rest ih =>
    intro a
    rw [List.foldl_cons, ih, List.map_cons, List.sum_cons]
    omega

lemma scoreNum_eq_sum (chunk : String) (toks : List String) :
    scoreNum chunk toks
      = (toks.map (fun t => countOccs t.data (lowerStr chunk).data)).sum := by
  rw [scoreNum, foldl_add_eq, Nat.zero_add]

lemma sum_map_double {α : Type} (f g : α → Nat) : ∀ (l : List α),
    (∀ x ∈ l, g x = 2 * f x) → (l.map g).sum = 2 * (l.map f).sum := by
  intro l
  induction l with
  | nil => intro _; simp
  | cons x rest ih =>
    intro h
    rw [List.map_cons, List.map_cons, List.sum_cons, List.sum_cons,
      h x (List.mem_cons_self x rest), ih (fun y hy => h y (List.mem_cons_of_mem x hy))]
    omega

lemma scoreNum_dup (chunk : String) (toks : List String)
    (htoks : ∀ t ∈ toks, t.data ≠ [] ∧ ∀ c ∈ t.data, isWs c = false) :
    scoreNum (chunk ++ " " ++ chunk) toks = 2 * scoreNum chunk toks := by
  rw [scoreNum_eq_sum, scoreNum_eq_sum]
  apply sum_map_double
  intro t ht
  obtain ⟨_, hws⟩ := htoks t ht
  rw [lowerStr_dup_data, countOccs_sep t.data _ _ hws]
  omega

lemma getLastD_append_cons : ∀ (l1 : List Char) (a : Char) (l2 : List Char) (d : Char),
    List.getLastD (l1 ++ a :: l2) d = List.getLastD l2 a := by
  intro l1
  induction l1 with
  | nil => intro a l2 d; rw [List.nil_append, List.getLastD_cons]
  | cons x xs ih =>
    intro a l2 d
    rw [List.cons_append, List.getLastD_cons, ih]

lemma cleanStr_dup (chunk : String) (h : cleanStr chunk = true) :
    cleanStr (chunk ++ " " ++ chunk) = true := by
  obtain ⟨c, cs, hd, h1, h2⟩ := cleanStr_elim chunk h
  rw [cleanStr, dup_data, hd, List.cons_append, cleanChars_cons,
    getLastD_append_cons, List.getLastD_cons, h1, h2]
  rfl

lemma wordCount_dup (chunk : String) (h : cleanStr chunk = true) :
    (jsSplitWs (chunk ++ " " ++ chunk)).length = 2 * (jsSplitWs chunk).length := by
  have hdup := cleanStr_dup chunk h
  rw [jsSplitWs_clean _ hdup, jsSplitWs_clean _ h, List.length_map,
    List.length_map, dup_data, wordsOf_sep, List.length_append]
  omega

lemma scoreChunk_dup (chunk question : String) (h : cleanStr chunk = true)
    (hne : (questionTokens question).isEmpty = false) :
    scoreChunk (chunk ++ " " ++ chunk) question
      = (2 * (scoreChunk chunk question).1, 2 * (scoreChunk chunk question).2) := by
  have htoks := fun t ht => mem_questionTokens question t ht
  simp only [scoreChunk, hne, Bool.false_eq_true, if_false]
  rw [scoreNum_dup chunk (questionTokens question) htoks,
    wordCount_dup chunk h]

lemma scoreChunk_eq_spec (chunk question : String) (h : cleanStr chunk = true) :
    scoreChunk chunk question = scoreChunkSpec chunk question := by
  simp only [scoreChunk, scoreChunkSpec, questionTokens_eq_spec]
  by_cases hne : (questionTokensSpec question).isEmpty
  · rw [if_pos hne, if_pos hne]
  · rw [if_neg hne, if_neg hne, jsSplitWs_clean chunk h, List.length_map]

lemma scoreDocChunks_cons (question filename : String) (docId : Nat)
    (c : String) (rest : List String) (i : Nat) :
    scoreDocChunks question filename docId (c :: rest) i =
      ⟨c, scoreChunk c question, i, filename, docId⟩ ::
        scoreDocChunks question filename docId rest (i + 1) := rfl

lemma scoreDocChunks_length (question filename : String) (docId : Nat) :
    ∀ (chunks : List String) (i : Nat),
      (scoreDocChunks question filename docId chunks i).length = chunks.length := by
  intro chunks
  induction chunks with
  | nil => intro i; rfl
  | cons c rest ih =>
    intro i
    rw [scoreDocChunks_cons, List.length_cons, List.length_cons, ih]

lemma multiAllScored_cons (question : String) (d : DocRec) (rest : List DocRec) :
    multiAllScored question (d :: rest) =
      scoreDocChunks question d.filename d.id (chunkText d.content 500 100) 0
        ++ multiAllScored question rest := rfl

lemma multiAllScored_length (question : String) : ∀ (docs : List DocRec),
    (multiAllScored question docs).length
      = (docs.map (fun d => (chunkText d.content 500 100).length)).sum := by
  intro docs
  induction docs with
  | nil => rfl
  | cons d rest ih =>
    rw [multiAllScored_cons, List.length_append, ih, List.map_cons,
      List.sum_cons, scoreDocChunks_length]

lemma mem_scoreDocChunks (question filename : String) (docId : Nat) :
    ∀ (chunks : List String) (i : Nat) (e : ScoredChunk),
      e ∈ scoreDocChunks question filename docId chunks i →
      e.filename = filename ∧ e.documentId = docId ∧ i ≤ e.index ∧
        chunks[e.index - i]? = some e.chunk ∧
        e.score = scoreChunk e.chunk question := by
  intro chunks
  induction chunks with
  | nil => intro i e he; exact absurd he (List.not_mem_nil e)
  | cons c rest ih =>
    intro i e he
    rw [scoreDocChunks_cons] at he
    rcases List.mem_cons.mp he with rfl | he
    · refine ⟨rfl, rfl, le_refl _, ?_, rfl⟩
      simp
    · obtain ⟨h1, h2, h3, h4, h5⟩ := ih (i + 1) e he
      refine ⟨h1, h2, by omega, ?_, h5⟩
      have hidx : e.index - i = (e.index - (i + 1)) + 1 := by omega
      rw [hidx, List.getElem?_cons_succ]
      exact h4

lemma mem_multiAllScored (question : String) : ∀ (docs : List DocRec)
    (e : ScoredChunk), e ∈ multiAllScored question docs →
    ∃ d ∈ docs, e.filename = d.filename ∧ e.documentId = d.id ∧
      (chunkText d.content 500 100)[e.index]? = some e.chunk ∧
      e.score = scoreChunk e.chunk question := by
  intro docs
  induction docs with
  | nil => intro e he; exact absurd he (List.not_mem_nil e)
  | cons d rest ih =>
    intro e he
    rw [multiAllScored_cons] at he
    rcases List.mem_append.mp he with he' | he'
    · obtain ⟨h1, h2, h3, h4, h5⟩ :=
        mem_scoreDocChunks question d.filename d.id
          (chunkText d.content 500 100) 0 e he'
      refine ⟨d, List.mem_cons_self d rest, h1, h2, ?_, h5⟩
      simpa using h4
    · obtain ⟨d', hd', h1, h2, h3, h4⟩ := ih e he'
      exact ⟨d', List.mem_cons_of_mem d hd', h1, h2, h3, h4⟩

lemma mem_getRelevantChunksMultiDoc (docs : List DocRec) (question : String)
    (topK : Nat) (e : ScoredChunk)
    (he : e ∈ getRelevantChunksMultiDoc docs question topK) :
    e ∈ multiAllScored question docs := by
  rw [getRelevantChunksMultiDoc] at he
  exact (List.mem_insertionSort byScoreDesc).mp (List.mem_of_mem_take he)

lemma jsSplitChars_ne_nil (l : List Char) : jsSplitChars l ≠ [] := by
  cases l with
  | nil => simp [jsSplitChars]
  | cons c cs =>
    rw [jsSplitChars_cons]
    by_cases h : isWs c = true
    · rw [if_pos h]
      simp
    · rw [if_neg h]
      rw [List.nil_append]
      intro hcontra
      rcases List.append_eq_nil.mp hcontra with ⟨hmap, _⟩
      exact wordsOf_head_ne_nil c cs (by simpa using h)
        (List.map_eq_nil.mp hmap)

lemma scoreChunk_den_pos (chunk question : String) :
    0 < (scoreChunk chunk question).2 := by
  simp only [scoreChunk]
  by_cases hne : (questionTokens question).isEmpty
  · rw [if_pos hne]
    omega
  · rw [if_neg hne]
    show 0 < (jsSplitWs chunk).length
    exact List.length_pos.mpr (jsSplitChars_ne_nil chunk.data)

lemma scoredSingle_cons (question : String) (c : String) (rest : List String)
    (i : Nat) :
    scoredSingle question (c :: rest) i =
      ⟨c, scoreChunk c question, i⟩ :: scoredSingle question rest (i + 1) := rfl

lemma firstSeen_cons (f : String) (rest : List String) :
    firstSeen (f :: rest) = f :: (firstSeen rest).filter (fun x => !(x == f)) := rfl

lemma mem_firstSeen (x : String) : ∀ (fs : List String),
    x ∈ firstSeen fs ↔ x ∈ fs := by
  intro fs
  induction fs with
  | nil => simp [firstSeen]
  | cons f rest ih =>
    rw [firstSeen_cons]
    constructor
    · intro hx
      rcases List.mem_cons.mp hx with rfl | hx
      · exact List.mem_cons_self x rest
      · exact List.mem_cons_of_mem f (ih.mp (List.mem_filter.mp hx).1)
    · intro hx
      rcases List.mem_cons.mp hx with rfl | hx
      · exact List.mem_cons_self x _
      · by_cases hxf : x = f
        · exact hxf ▸ List.mem_cons_self x _
        · refine List.mem_cons_of_mem f (List.mem_filter.mpr ⟨ih.mpr hx, ?_⟩)
          simp [hxf]

lemma firstSeen_nodup : ∀ (fs : List String), (firstSeen fs).Nodup := by
  intro fs
  induction fs with
  | nil => simp [firstSeen]
  | cons f rest ih =>
    rw [firstSeen_cons, List.nodup_cons]
    refine ⟨?_, ih.filter _⟩
    intro hmem
    have := (List.mem_filter.mp hmem).2
    simp at this

lemma firstSeen_snoc (f : String) : ∀ (fs : List String),
    firstSeen (fs ++ [f])
      = if f ∈ fs then firstSeen fs else firstSeen fs ++ [f] := by
  intro fs
  induction fs with
  | nil => simp [firstSeen, firstSeen_cons]
  | cons g gs ih =>
    rw [List.cons_append, firstSeen_cons, ih, firstSeen_cons]
    by_cases hgs : f ∈ gs
    · rw [if_pos hgs, if_pos (List.mem_cons_of_mem g hgs)]
    · rw [if_neg hgs]
      by_cases hfg : f = g
      · rw [if_pos (by rw [hfg]; exact List.mem_cons_self g gs)]
        rw [List.filter_append]
        have : ([f].filter (fun x => !(x == g))) = [] := by
          simp [hfg]
        rw [this, List.append_nil]
      · rw [if_neg (by
          intro hmem
          rcases List.mem_cons.mp hmem with h | h
          · exact hfg h
          · exact hgs h)]
        rw [List.filter_append]
        have : ([f].filter (fun x => !(x == g))) = [f] := by
          simp [hfg]
        rw [this, List.cons_append]

lemma insertEntry_mem_map (F : String → List (Nat × String)) :
    ∀ (fs : List String) (f : String) (p : Nat × String), fs.Nodup → f ∈ fs →
      insertEntry (fs.map (fun x => ⟨x, F x⟩)) f p
        = fs.map (fun x => ⟨x, if x = f then F x ++ [p] else F x⟩) := by
  intro fs
  induction fs with
  | nil => intro f p _ hmem; exact absurd hmem (List.not_mem_nil f)
  | cons g gs ih =>
    intro f p hnd hmem
    rw [List.map_cons, List.map_cons]
    show insertEntry (⟨g, F g⟩ :: gs.map (fun x => ⟨x, F x⟩)) f p = _
    rw [insertEntry]
    by_cases hgf : g = f
    · rw [if_pos (by simpa using hgf)]
      subst hgf
      have hnotin : g ∉ gs := (List.nodup_cons.mp hnd).1
      have hmapeq : gs.map (fun x => ⟨x, F x⟩)
          = gs.map (fun x => (⟨x, if x = g then F x ++ [p] else F x⟩ : SourceGroup)) := by
        apply List.map_congr_left
        intro a ha
        have : a ≠ g := fun h => hnotin (h ▸ ha)
        simp [this]
      rw [if_pos rfl] at *
      simp only [if_pos rfl]
      rw [← hmapeq]
    · rw [if_neg (by simpa using hgf)]
      have hfgs : f ∈ gs := by
        rcases List.mem_cons.mp hmem with h | h
        · exact absurd h.symm hgf
        · exact h
      rw [ih f p (List.nodup_cons.mp hnd).2 hfgs]
      have : g ≠ f := hgf
      simp [this]

lemma insertEntry_not_mem_map (F : String → List (Nat × String)) :
    ∀ (fs : List String) (f : String) (p : Nat × String), f ∉ fs →
      insertEntry (fs.map (fun x => ⟨x, F x⟩)) f p
        = fs.map (fun x => ⟨x, F x⟩) ++ [⟨f, [p]⟩] := by
  intro fs
  induction fs with
  | nil => intro f p _; rfl
  | cons g gs ih =>
    intro f p hnmem
    rw [List.map_cons]
    show insertEntry (⟨g, F g⟩ :: gs.map (fun x => ⟨x, F x⟩)) f p = _
    rw [insertEntry]
    have hgf : g ≠ f := by
      intro h
      exact hnmem (h ▸ List.mem_cons_self g gs)
    rw [if_neg (by simpa using hgf)]
    rw [ih f p (fun h => hnmem (List.mem_cons_of_mem g h))]
    rfl

lemma sourceGroups_snoc (l : List ScoredChunk) (e : ScoredChunk) :
    sourceGroups (l ++ [e]) = insertEntry (sourceGroups l) e.filename (entryOf e) := by
  rw [sourceGroups, sourceGroups, List.foldl_append]
  rfl

lemma filter_snoc (l : List ScoredChunk) (e : ScoredChunk) (f : String) :
    (l ++ [e]).filter (fun x => x.filename == f)
      = l.filter (fun x => x.filename == f)
        ++ (if e.filename == f then [e] else []) := by
  rw [List.filter_append]
  congr 1
  by_cases h : (e.filename == f) = true <;> simp [List.filter, h]

lemma filter_of_not_mem_filenames (l : List ScoredChunk) (f : String)
    (h : f ∉ l.map ScoredChunk.filename) :
    l.filter (fun x => x.filename == f) = [] := by
  rw [List.filter_eq_nil_iff]
  intro a ha hbeq
  apply h
  have hfa : a.filename = f := by simpa using hbeq
  exact hfa ▸ List.mem_map_of_mem ScoredChunk.filename ha

lemma sourceGroups_spec : ∀ (l : List ScoredChunk), sourceGroups l = groupsFor l := by
  intro l
  induction l using List.reverseRecOn with
  | nil => rfl
  | append_singleton l e ih =>
    rw [sourceGroups_snoc, ih, groupsFor, groupsFor]
    simp only [List.map_append, List.map_cons, List.map_nil]
    rw [firstSeen_snoc]
    by_cases hmem : e.filename ∈ l.map ScoredChunk.filename
    · rw [if_pos hmem]
      rw [insertEntry_mem_map
        (fun f => (l.filter (fun x => x.filename == f)).map entryOf)
        (firstSeen (l.map ScoredChunk.filename)) e.filename (entryOf e)
        (firstSeen_nodup _) ((mem_firstSeen _ _).mpr hmem)]
      apply List.map_congr_left
      intro f hf
      rw [filter_snoc]
      by_cases hfe : f = e.filename
      · rw [if_pos hfe, if_pos (by simp [hfe])]
        simp
      · have hef : ¬e.filename = f := fun h => hfe h.symm
        rw [if_neg hfe, if_neg (by simp [hef])]
        simp
    · rw [if_neg hmem]
      rw [insertEntry_not_mem_map
        (fun f => (l.filter (fun x => x.filename == f)).map entryOf)
        (firstSeen (l.map ScoredChunk.filename)) e.filename (entryOf e)
        (fun h => hmem ((mem_firstSeen _ _).mp h))]
      rw [List.map_append]
      congr 1
      · apply List.map_congr_left
        intro f hf
        rw [filter_snoc]
        have hfe : e.filename ≠ f := by
          intro h
          exact hmem (h ▸ (mem_firstSeen _ _).mp hf)
        rw [if_neg (by simp [hfe])]
        simp
      · rw [List.map_cons, List.map_nil, filter_snoc,
          filter_of_not_mem_filenames l _ hmem]
        simp

lemma sourceGroups_filenames (l : List ScoredChunk) :
    (sourceGroups l).map SourceGroup.filename
      = firstSeen (l.map ScoredChunk.filename) := by
  rw [sourceGroups_spec, groupsFor, List.map_map]
  have : (SourceGroup.filename ∘ fun f =>
      (⟨f, (l.filter (fun e => e.filename == f)).map entryOf⟩ : SourceGroup))
        = fun f => f := rfl
  rw [this]
  exact List.map_id _

lemma mem_sourceGroups (l : List ScoredChunk) (g : SourceGroup)
    (hg : g ∈ sourceGroups l) :
    g.chunks = (l.filter (fun e => e.filename == g.filename)).map entryOf := by
  rw [sourceGroups_spec, groupsFor] at hg
  obtain ⟨f, hf, rfl⟩ := List.mem_map.mp hg
  rfl

lemma val_eq_sqrt_div (m n : Nat) :
    ((m : ℝ) / Real.sqrt n) = Real.sqrt ((m : ℝ) ^ 2 / n) := by
  rw [Real.sqrt_div (by positivity) _, Real.sqrt_sq (by positivity)]

lemma scoreLe_iff_val (p q : Nat × Nat) (hp : 0 < p.2) (hq : 0 < q.2) :
    scoreLe p q ↔
      ((p.1 : ℝ) / Real.sqrt p.2 ≤ (q.1 : ℝ) / Real.sqrt q.2) := by
  rw [val_eq_sqrt_div, val_eq_sqrt_div,
    Real.sqrt_le_sqrt_iff (by positivity),
    div_le_div_iff (by exact_mod_cast hp) (by exact_mod_cast hq),
    pow_two, pow_two, scoreLe, Nat.max_eq_left hp, Nat.max_eq_left hq]
  constructor
  · intro h
    exact_mod_cast h
  · intro h
    exact_mod_cast h

lemma val_dup_sqrt2 (m n : Nat) (hn : 0 < n) :
    (((2 * m : Nat) : ℝ) / Real.sqrt ((2 * n : Nat) : ℝ))
      = Real.sqrt 2 * ((m : ℝ) / Real.sqrt n) := by
  have hcastn : ((2 * n : Nat) : ℝ) = 2 * (n : ℝ) := by push_cast; ring
  have hcastm : ((2 * m : Nat) : ℝ) = 2 * (m : ℝ) := by push_cast; ring
  rw [hcastn, hcastm, Real.sqrt_mul (by norm_num : (0:ℝ) ≤ 2)]
  have h2 : (0:ℝ) < Real.sqrt 2 := Real.sqrt_pos.mpr (by norm_num)
  have hnp : (0:ℝ) < Real.sqrt n := Real.sqrt_pos.mpr (by exact_mod_cast hn)
  have hss : Real.sqrt 2 * Real.sqrt 2 = 2 := Real.mul_self_sqrt (by norm_num)
  field_simp
  linear_combination (-((m : ℝ) * Real.sqrt n)) * hss

lemma den_pos_of_mem_multi (docs : List DocRec) (question : String)
    (topK : Nat) (e : ScoredChunk)
    (he : e ∈ getRelevantChunksMultiDoc docs question topK) :
    0 < e.score.2 := by
  obtain ⟨d, _, _, _, _, h5⟩ := mem_multiAllScored question docs e
    (mem_getRelevantChunksMultiDoc docs question topK e he)
  rw [h5]
  exact scoreChunk_den_pos _ _

/-- C1 (counterexample): the claimed chunk-count formula
`ceil(max(W-500,0)/400) + 1` fails on text with boundary whitespace.  The
text `c1Text` (a leading space followed by W = 500 words) produces 2
chunks, while the formula evaluated at W = 500 gives 1: the JavaScript
split yields a 501-entry array whose leading empty string shifts the loop
past the single-chunk regime. -/
theorem c1_counterexample :
    (wordsOf c1Text.data).length = 500
      ∧ (chunkText c1Text 500 100).length = 2
      ∧ 2 ≠ (500 - 500 + 399) / 400 + 1 :=
  ⟨by decide, by decide, by decide⟩

/-- C1 (amended): with `S = 500`, `O = 100`, for every text that is
nonempty with non-whitespace first and last characters (so the split
introduces no empty boundary entries) and contains `W` words, the number
of chunks equals `ceil(max(W-500,0)/400) + 1` (written with natural
division as `(W - 500 + 399) / 400 + 1`); and for empty or whitespace-only
text the number of chunks is 0. -/
theorem c1_amended :
    (∀ text : String, cleanStr text = true →
      (chunkText text 500 100).length
        = ((wordsOf text.data).length - 500 + 399) / 400 + 1)
    ∧ (∀ text : String, (∀ c ∈ text.data, isWs c = true) →
        chunkText text 500 100 = []) :=
  ⟨chunkText_length_clean, chunkText_ws_only⟩

/-- Witness for `c1_amended` at the one-word text `"a"` and the
whitespace-only text `" "`. -/
theorem c1_amended_witness :
    (chunkText "a" 500 100).length
        = ((wordsOf "a".data).length - 500 + 399) / 400 + 1
      ∧ chunkText " " 500 100 = [] :=
  ⟨c1_amended.1 "a" (by decide), c1_amended.2 " " (by decide)⟩

/-- C2 (counterexample): for the spec's example chunk and question the
score is not 1.0.  The surviving tokens are `"cat"` and `"like?"` (the
question mark is not stripped by whitespace tokenization, so `"like?"`
matches nothing), the chunk has 10 whitespace-split words, and the score
representation is `(2, 10)`, i.e. the value `2/√10 ≈ 0.632 ≠ 1`. -/
theorem c2_counterexample :
    scoreChunk "The cat sat on the mat. The cat likes fish."
        "What does the cat like?" = (2, 10)
      ∧ (2 : ℝ) / Real.sqrt 10 ≠ 1 := by
  refine ⟨by decide, ?_⟩
  intro h
  have hpos : (0:ℝ) < Real.sqrt 10 := Real.sqrt_pos.mpr (by norm_num)
  have h10 : Real.sqrt 10 * Real.sqrt 10 = 10 := Real.mul_self_sqrt (by norm_num)
  rw [div_eq_one_iff_eq (ne_of_gt hpos)] at h
  rw [← h] at h10
  norm_num at h10

/-- C2 (amended): `scoreChunk` equals the reference definition of the
specification for every chunk text that is nonempty without leading or
trailing whitespace (then the JavaScript split's word count agrees with
the number of words; occurrences are counted non-overlapping, left to
right); and for the example chunk
`"The cat sat on the mat. The cat likes fish."` with question
`"What does the cat like?"` the surviving tokens are `"cat"` (2 matches)
and `"like?"` (0 matches), the word count is 10, and the score is
`2/√10`, not 1.0. -/
theorem c2_amended :
    (∀ chunk question : String, cleanStr chunk = true →
      scoreChunk chunk question = scoreChunkSpec chunk question)
    ∧ scoreChunk "The cat sat on the mat. The cat likes fish."
        "What does the cat like?" = (2, 10)
    ∧ ((scoreChunk "The cat sat on the mat. The cat likes fish."
          "What does the cat like?").1 : ℝ)
        / Real.sqrt ((scoreChunk "The cat sat on the mat. The cat likes fish."
          "What does the cat like?").2)
      = 2 / Real.sqrt 10 := by
  have hrep : scoreChunk "The cat sat on the mat. The cat likes fish."
      "What does the cat like?" = (2, 10) := by decide
  refine ⟨scoreChunk_eq_spec, hrep, ?_⟩
  rw [hrep]
  norm_num

/-- Witness for `c2_amended` at a clean chunk. -/
theorem c2_amended_witness :
    scoreChunk "abc" "abc def" = scoreChunkSpec "abc" "abc def" :=
  c2_amended.1 "abc" "abc def" (by decide)

/-- C3: in the single-document path the returned selection is sorted into
ascending original sequence-index order (and `getRelevantChunks` is its
projection to chunk texts), while in the multi-document path the returned
top-K entries are in descending order of the real score value
`m/√n`; no index re-sort is applied there. -/
theorem c3_ordering :
    (∀ (content question : String) (topK : Nat),
      List.Sorted (· ≤ ·)
        ((getRelevantChunksScored content question topK).map SChunk.index))
    ∧ (∀ (docs : List DocRec) (question : String) (topK : Nat),
        List.Pairwise (fun a b : ScoredChunk =>
          (b.score.1 : ℝ) / Real.sqrt b.score.2
            ≤ (a.score.1 : ℝ) / Real.sqrt a.score.2)
          (getRelevantChunksMultiDoc docs question topK)) := by
  constructor
  · intro content question topK
    have hs := List.sorted_insertionSort sByIdxAsc
      ((List.insertionSort sByScoreDesc
        (scoredSingle question (chunkText content 500 100) 0)).take topK)
    exact hs.map SChunk.index (fun a b hab => hab)
  · intro docs question topK
    have hs := List.sorted_insertionSort byScoreDesc (multiAllScored question docs)
    have htake : List.Pairwise byScoreDesc
        (getRelevantChunksMultiDoc docs question topK) :=
      List.Pairwise.sublist (List.take_sublist _ _) hs
    apply List.Pairwise.imp_of_mem ?_ htake
    intro a b ha hb hr
    exact (scoreLe_iff_val b.score a.score
      (den_pos_of_mem_multi docs question topK b hb)
      (den_pos_of_mem_multi docs question topK a ha)).mp hr

/-- C4 (counterexample): duplicating a chunk's text does not change the
score by a factor of `1/√2`.  For chunk `"abc"` and question `"abc"` the
original score is `1/√1 = 1` and the duplicated chunk `"abc abc"` scores
`2/√2 = √2 ≈ 1.414`, which differs from `(1/√2) · 1 ≈ 0.707`. -/
theorem c4_counterexample :
    scoreChunk "abc" "abc" = (1, 1)
      ∧ scoreChunk "abc abc" "abc" = (2, 2)
      ∧ (2 : ℝ) / Real.sqrt 2
          ≠ (1 / Real.sqrt 2) * ((1 : ℝ) / Real.sqrt 1) := by
  refine ⟨by decide, by decide, ?_⟩
  have hpos : (0:ℝ) < Real.sqrt 2 := Real.sqrt_pos.mpr (by norm_num)
  have hss : Real.sqrt 2 * Real.sqrt 2 = 2 := Real.mul_self_sqrt (by norm_num)
  intro h
  rw [Real.sqrt_one] at h
  field_simp [ne_of_gt hpos] at h

/-- C4 (amended): for every chunk text that is nonempty with
non-whitespace first and last characters and every question, duplicating
the chunk (appending a copy of itself separated by a space) multiplies
its score by `√2` — not by 2, and not by `1/√2`. -/
theorem c4_amended : ∀ (chunk question : String), cleanStr chunk = true →
    ((scoreChunk (chunk ++ " " ++ chunk) question).1 : ℝ)
        / Real.sqrt ((scoreChunk (chunk ++ " " ++ chunk) question).2)
      = Real.sqrt 2 *
        (((scoreChunk chunk question).1 : ℝ)
          / Real.sqrt ((scoreChunk chunk question).2)) := by
  intro chunk question h
  by_cases hne : (questionTokens question).isEmpty
  · have h1 : scoreChunk (chunk ++ " " ++ chunk) question = (0, 1) := by
      simp [scoreChunk, hne]
    have h2 : scoreChunk chunk question = (0, 1) := by
      simp [scoreChunk, hne]
    rw [h1, h2]
    norm_num
  · have hd := scoreChunk_dup chunk question h
      (Bool.not_eq_true _ ▸ Bool.of_not_eq_true hne)
    rw [hd]
    exact val_dup_sqrt2 (scoreChunk chunk question).1
      (scoreChunk chunk question).2 (scoreChunk_den_pos chunk question)

/-- Witness for `c4_amended` at chunk `"abc"`, question `"abc"`. -/
theorem c4_amended_witness :
    ((scoreChunk ("abc" ++ " " ++ "abc") "abc").1 : ℝ)
        / Real.sqrt ((scoreChunk ("abc" ++ " " ++ "abc") "abc").2)
      = Real.sqrt 2 *
        (((scoreChunk "abc" "abc").1 : ℝ)
          / Real.sqrt ((scoreChunk "abc" "abc").2)) :=
  c4_amended "abc" "abc" (by decide)

/-- C5 (counterexample): within one document's citation group the selected
chunks are not listed in ascending sequence-index order.  For `c5Docs`
(one 501-word document whose only `"apple"` match is in its second chunk)
the grouping lists 1-based indices `[2, 1]`, which is not ascending. -/
theorem c5_counterexample :
    ((sourceGroups (getRelevantChunksMultiDoc c5Docs "apple" 8)).map
        (fun g => g.chunks.map Prod.fst)) = [[2, 1]]
      ∧ ¬ List.Sorted (· ≤ ·) ([2, 1] : List Nat) := by
  refine ⟨by decide, ?_⟩
  intro h
  have h21 := (List.pairwise_cons.mp h).1 1 (List.mem_singleton.mpr rfl)
  omega

/-- C5 (amended): in the per-document citation grouping of the
multi-document selection, the groups appear in the order each filename's
first chunk appears in the top-K selection (grouping is keyed by
filename), and within each group the entries are listed in the order the
chunks appear in the selection — i.e. in score-descending selection order,
not in ascending sequence-index order. -/
theorem c5_amended : ∀ (docs : List DocRec) (question : String) (topK : Nat),
    ((sourceGroups (getRelevantChunksMultiDoc docs question topK)).map
        SourceGroup.filename
      = firstSeen ((getRelevantChunksMultiDoc docs question topK).map
          ScoredChunk.filename))
    ∧ ∀ g ∈ sourceGroups (getRelevantChunksMultiDoc docs question topK),
        g.chunks = ((getRelevantChunksMultiDoc docs question topK).filter
            (fun e => e.filename == g.filename)).map entryOf := by
  intro docs question topK
  exact ⟨sourceGroups_filenames _, fun g hg => mem_sourceGroups _ g hg⟩

/-- Witness for `c5_amended` on a one-document selection. -/
theorem c5_amended_witness :
    (⟨"f", [(1, "hello world")]⟩ : SourceGroup).chunks
      = ((getRelevantChunksMultiDoc [⟨1, "f", "hello world"⟩] "hello" 5).filter
          (fun e => e.filename == "f")).map entryOf :=
  (c5_amended [⟨1, "f", "hello world"⟩] "hello" 5).2
    ⟨"f", [(1, "hello world")]⟩ (by decide)

/-- C6 (counterexample): the question `"a b"` has only 2 non-whitespace
characters, yet it is not rejected — the check measures the trimmed
length (3, counting the interior space), not the number of non-whitespace
characters. -/
theorem c6_counterexample :
    questionRejected "a b" = false
      ∧ ("a b".data.filter (fun c => !isWs c)).length < 3 :=
  ⟨by decide, by decide⟩

/-- C6 (amended): a question passes the validity check exactly when its
trimmed text (leading and trailing whitespace removed, interior
whitespace kept) has length at least 3; in particular every question with
at least 3 non-whitespace characters passes, but a shorter one may also
pass when interior whitespace pads the trimmed length. -/
theorem c6_amended : ∀ q : String,
    (questionRejected q = false ↔ 3 ≤ (jsTrim q).length)
    ∧ (3 ≤ (q.data.filter (fun c => !isWs c)).length →
        questionRejected q = false) := by
  intro q
  have hiff : questionRejected q = false ↔ 3 ≤ (jsTrim q).length := by
    rw [questionRejected]
    by_cases hq : q = ""
    · subst hq
      constructor
      · intro h
        exact absurd h (by decide)
      · intro h
        exact absurd h (by decide)
    · have hbeq : (q == "") = false := by simp [hq]
      rw [hbeq, Bool.false_or]
      simp [Nat.not_lt]
  refine ⟨hiff, ?_⟩
  intro h3
  rw [hiff]
  exact le_trans h3 (jsTrim_length_ge_nonWs q)

/-- Witness for `c6_amended` at question `"abc"`. -/
theorem c6_amended_witness :
    questionRejected "abc" = false :=
  (c6_amended "abc").2 (by decide)

/-- C7: for every chunk size `S` and overlap `O` with `O < S` the chunk
loop is insensitive to any extra fuel beyond `words.length + 1`, i.e. the
iteration terminates within that bound on every input (for `S ≤ O` the
JavaScript loop has no guard and may not advance, which is why the fuel
hypothesis is needed); and `scoreChunk` is total with a positive word
count in the denominator, so its division never divides by zero. -/
theorem c7_totality :
    (∀ (text : String) (chunkSize overlap extra : Nat), overlap < chunkSize →
      chunkLoop (jsSplitWs text) chunkSize overlap
          ((jsSplitWs text).length + 1 + extra) 0
        = chunkText text chunkSize overlap)
    ∧ (∀ chunk question : String, 0 < (scoreChunk chunk question).2) := by
  constructor
  · intro text S O extra hSO
    unfold chunkText
    exact chunkLoop_fuel_stable (jsSplitWs text) S O hSO
      ((jsSplitWs text).length) 0 _ _ (by omega) (by omega) (by omega)
  · exact scoreChunk_den_pos

/-- Witness for `c7_totality` at `"a b c"`, `S = 2`, `O = 1`, 5 units of
extra fuel. -/
theorem c7_totality_witness :
    chunkLoop (jsSplitWs "a b c") 2 1 ((jsSplitWs "a b c").length + 1 + 5) 0
        = chunkText "a b c" 2 1
      ∧ 0 < (scoreChunk "" "").2 :=
  ⟨c7_totality.1 "a b c" 2 1 5 (by decide), c7_totality.2 "" ""⟩

/-- C8: the multi-document selector returns at most
`min(topK, total number of chunks across all documents)` entries. -/
theorem c8_topk_bound : ∀ (docs : List DocRec) (question : String) (topK : Nat),
    (getRelevantChunksMultiDoc docs question topK).length
      ≤ min topK
          ((docs.map (fun d => (chunkText d.content 500 100).length)).sum) := by
  intro docs question topK
  rw [getRelevantChunksMultiDoc, List.length_take, List.length_insertionSort,
    multiAllScored_length]

/-- C9: every score value `m/√n` is nonnegative, and whenever the
question has no surviving tokens (none longer than 2 characters that is
not a stop word), `scoreChunk` returns exactly 0 (represented `(0, 1)`). -/
theorem c9_nonneg : ∀ (chunk question : String),
    0 ≤ ((scoreChunk chunk question).1 : ℝ)
        / Real.sqrt ((scoreChunk chunk question).2)
    ∧ (questionTokens question = [] → scoreChunk chunk question = (0, 1)) := by
  intro chunk question
  constructor
  · exact div_nonneg (by positivity) (Real.sqrt_nonneg _)
  · intro h
    simp [scoreChunk, h]

/-- Witness for `c9_nonneg` at the all-stop-word question `"the"`. -/
theorem c9_nonneg_witness :
    0 ≤ ((scoreChunk "x" "the").1 : ℝ) / Real.sqrt ((scoreChunk "x" "the").2)
      ∧ scoreChunk "x" "the" = (0, 1) :=
  ⟨(c9_nonneg "x" "the").1, (c9_nonneg "x" "the").2 (by decide)⟩

/-- C10: every entry returned by the multi-document selector is internally
consistent with its source: some input document carries its `documentId`
and `filename`, its `index` is a valid position in that document's chunk
list, the `chunk` field is the chunk at that position, and the `score`
field is `scoreChunk` of that chunk against the question. -/
theorem c10_consistency : ∀ (docs : List DocRec) (question : String)
    (topK : Nat) (e : ScoredChunk),
    e ∈ getRelevantChunksMultiDoc docs question topK →
    ∃ d ∈ docs, e.filename = d.filename ∧ e.documentId = d.id ∧
      e.index < (chunkText d.content 500 100).length ∧
      (chunkText d.content 500 100)[e.index]? = some e.chunk ∧
      e.score = scoreChunk e.chunk question := by
  intro docs question topK e he
  obtain ⟨d, hd, h1, h2, h3, h4⟩ := mem_multiAllScored question docs e
    (mem_getRelevantChunksMultiDoc docs question topK e he)
  exact ⟨d, hd, h1, h2, (List.getElem?_eq_some_iff.mp h3).1, h3, h4⟩

/-- Witness for `c10_consistency` on a one-document input. -/
theorem c10_consistency_witness :
    ∃ d ∈ [(⟨1, "f", "hello world"⟩ : DocRec)],
      (⟨"hello world", (1, 2), 0, "f", 1⟩ : ScoredChunk).filename = d.filename
      ∧ (⟨"hello world", (1, 2), 0, "f", 1⟩ : ScoredChunk).documentId = d.id
      ∧ (⟨"hello world", (1, 2), 0, "f", 1⟩ : ScoredChunk).index
          < (chunkText d.content 500 100).length
      ∧ (chunkText d.content 500 100)[
          (⟨"hello world", (1, 2), 0, "f", 1⟩ : ScoredChunk).index]?
        = some (⟨"hello world", (1, 2), 0, "f", 1⟩ : ScoredChunk).chunk
      ∧ (⟨"hello world", (1, 2), 0, "f", 1⟩ : ScoredChunk).score
        = scoreChunk (⟨"hello world", (1, 2), 0, "f", 1⟩ : ScoredChunk).chunk
            "hello" :=
  c10_consistency [⟨1, "f", "hello world"⟩] "hello" 5
    ⟨"hello world", (1, 2), 0, "f", 1⟩ (by decide)

end Rag
